import Mathlib

/-!
Verification of the Gesture-Music-Paint audio core.

This file gives a shallow embedding, in Lean 4, of the music engine and
sequencer of the Gesture-Music-Paint repository (`config.py`,
`music_engine.py`, `sequencer.py`, `project_model.py`) and proves the
frozen claims about it.

Conventions of the embedding:
* Python `float` values are modelled as exact rationals (`ℚ`);
* Python `int` is `ℤ`; Python `//` and `%` (used only with the positive
  divisors 12 and 32) are `Int.ediv` / `Int.emod`, which agree with
  Python floor-division / modulo for positive divisors;
* Python `int(x)` (truncation toward zero) is `pyInt`;
* Python `round(x)` (round half to even) is `pyRound`;
* Python `min(list, key=f)` (first minimiser wins ties) is `pyMinKey`;
* side effects (playing a pygame sound, launching a thread, writing a
  file) are reflected in return values of the modelled functions.
-/

namespace GesturePaint

/-- Python `int(q)`: truncation toward zero. -/
def pyInt (q : ℚ) : ℤ := if 0 ≤ q then ⌊q⌋ else ⌈q⌉

/-- Python `round(q)` for a rational value: round half to even. -/
def pyRound (q : ℚ) : ℤ :=
  if q - ⌊q⌋ < 1/2 then ⌊q⌋
  else if 1/2 < q - ⌊q⌋ then ⌊q⌋ + 1
  else if ⌊q⌋ % 2 = 0 then ⌊q⌋ else ⌊q⌋ + 1

/-- Auxiliary loop of Python `min(_, key=_)`: `b` is the current best, and a
later element replaces it only when its key is strictly smaller, so the
first minimiser wins. -/
def minKeyAux (key : ℤ → ℤ) : ℤ → List ℤ → ℤ
  | b, [] => b
  | b, s :: rest => minKeyAux key (if key s < key b then s else b) rest

/-- Python `min(l, key=key)` for a nonempty list (`0` is a junk value for
`[]`, which never arises: every scale list is nonempty). -/
def pyMinKey (key : ℤ → ℤ) : List ℤ → ℤ
  | [] => 0
  | h :: t => minKeyAux key h t

/-! ## config.py -/

def MIN_NOTE : ℤ := 48
def MAX_NOTE : ℤ := 84
def MIN_NOTE_DURATION : ℤ := 100
def MAX_NOTE_DURATION : ℤ := 500
def MIN_VOLUME : ℤ := 30
def MAX_VOLUME : ℤ := 127
def HEADER_HEIGHT : ℤ := 60
def MIN_BRUSH_THICKNESS : ℤ := 3
def MAX_BRUSH_THICKNESS : ℤ := 30

def INSTRUMENT_LIST : List String := ["piano", "guitar", "drums", "synth", "strings"]

def DEFAULT_INSTRUMENT : String := "piano"

/-- The keys of the `SCALE_TYPES` dict. -/
def SCALE_NAMES : List String := ["major", "minor", "pentatonic", "blues", "chromatic"]

/-- `SCALE_TYPES.get(scale_type, SCALE_TYPES['pentatonic'])`: the interval
lists of the `SCALE_TYPES` dict, defaulting to pentatonic on a missing key
exactly as in `quantize_to_scale`. -/
def scaleTypesGet (scale_type : String) : List ℤ :=
  if scale_type = "major" then [0, 2, 4, 5, 7, 9, 11]
  else if scale_type = "minor" then [0, 2, 3, 5, 7, 8, 10]
  else if scale_type = "pentatonic" then [0, 2, 4, 7, 9]
  else if scale_type = "blues" then [0, 3, 5, 6, 7, 10]
  else if scale_type = "chromatic" then [0, 1, 2, 3, 4, 5, 6, 7, 8, 9, 10, 11]
  else [0, 2, 4, 7, 9]

def DEFAULT_SCALE : String := "pentatonic"
def DEFAULT_ROOT : ℤ := 60

/-- `config.map_x_to_note`: clamp `x` into `[0, width-1]` and map linearly
onto `[MIN_NOTE, MAX_NOTE)`. -/
def map_x_to_note (x : ℤ) (width : ℤ) : ℤ :=
  let xc := max 0 (min x (width - 1))
  pyInt (MIN_NOTE + ((xc : ℚ) / (width : ℚ)) * ((MAX_NOTE : ℚ) - (MIN_NOTE : ℚ)))

/-- `config.map_y_to_duration`: clamp `y` into `[HEADER_HEIGHT, height-1]`
and map linearly onto the duration range. -/
def map_y_to_duration (y : ℤ) (height : ℤ) : ℤ :=
  let yc := max HEADER_HEIGHT (min y (height - 1))
  pyInt (MIN_NOTE_DURATION +
    (((yc : ℚ) - (HEADER_HEIGHT : ℚ)) / ((height : ℚ) - (HEADER_HEIGHT : ℚ))) *
      ((MAX_NOTE_DURATION : ℚ) - (MIN_NOTE_DURATION : ℚ)))

/-- `config.map_thickness_to_volume`. -/
def map_thickness_to_volume (thickness : ℤ) : ℤ :=
  let tc := max MIN_BRUSH_THICKNESS (min thickness MAX_BRUSH_THICKNESS)
  pyInt (MIN_VOLUME +
    (((tc : ℚ) - (MIN_BRUSH_THICKNESS : ℚ)) /
        ((MAX_BRUSH_THICKNESS : ℚ) - (MIN_BRUSH_THICKNESS : ℚ))) *
      ((MAX_VOLUME : ℚ) - (MIN_VOLUME : ℚ)))

/-- Core of `config.quantize_to_scale` once the scale list has been fetched:
`relative = (note - root) % 12`, `octave = (note - root) // 12`,
`closest = min(scale, key=lambda s: abs(s - relative))`. -/
def quantizeWith (scale : List ℤ) (note root : ℤ) : ℤ :=
  -- Lean's `%` / `/` on `ℤ` are Euclidean; for the positive divisor 12 they
  -- agree with Python's `%` and `//` (floor semantics).
  let relative := (note - root) % 12
  let octave := (note - root) / 12
  let closest := pyMinKey (fun s => |s - relative|) scale
  root + octave * 12 + closest

/-- `config.quantize_to_scale`. -/
def quantize_to_scale (note : ℤ) (scale_type : String) (root : ℤ) : ℤ :=
  quantizeWith (scaleTypesGet scale_type) note root

/-! ### Facts about the Python helpers -/

theorem minKeyAux_mem (key : ℤ → ℤ) (l : List ℤ) :
    ∀ b, minKeyAux key b l = b ∨ minKeyAux key b l ∈ l := by
  induction l with
  | nil => intro b; exact Or.inl rfl
  | cons s rest ih =>
    intro b
    rcases ih (if key s < key b then s else b) with h | h
    · rw [minKeyAux, h]
      split
      · exact Or.inr (List.mem_cons_self _ _)
      · exact Or.inl rfl
    · exact Or.inr (List.mem_cons_of_mem _ (by rw [minKeyAux]; exact h))

theorem minKeyAux_le (key : ℤ → ℤ) (l : List ℤ) :
    ∀ b, key (minKeyAux key b l) ≤ key b ∧
      ∀ s ∈ l, key (minKeyAux key b l) ≤ key s := by
  induction l with
  | nil => intro b; exact ⟨le_refl _, by simp⟩
  | cons s rest ih =>
    intro b
    obtain ⟨h1, h2⟩ := ih (if key s < key b then s else b)
    rw [minKeyAux]
    have hb : key (if key s < key b then s else b) ≤ key b := by
      split
      · omega
      · exact le_refl _
    have hs : key (if key s < key b then s else b) ≤ key s := by
      split
      · exact le_refl _
      · omega
    refine ⟨le_trans h1 hb, ?_⟩
    intro u hu
    rcases List.mem_cons.1 hu with rfl | hu
    · exact le_trans h1 hs
    · exact h2 u hu

theorem minKeyAux_first (key : ℤ → ℤ) (l : List ℤ) :
    ∀ b, ∃ l₁ l₂, b :: l = l₁ ++ minKeyAux key b l :: l₂ ∧
      ∀ s ∈ l₁, key (minKeyAux key b l) < key s := by
  induction l with
  | nil => intro b; exact ⟨[], [], rfl, by simp⟩
  | cons s rest ih =>
    intro b
    rw [minKeyAux]
    by_cases h : key s < key b
    · obtain ⟨l₁, l₂, heq, hlt⟩ := ih s
      rw [if_pos h] at *
      refine ⟨b :: l₁, l₂, by rw [List.cons_append, ← heq], ?_⟩
      intro u hu
      rcases List.mem_cons.1 hu with rfl | hu
      · exact lt_of_le_of_lt (le_trans (minKeyAux_le key rest s).1 (le_refl _)) h
      · exact hlt u hu
    · obtain ⟨l₁, l₂, heq, hlt⟩ := ih b
      rw [if_neg h] at *
      match l₁, heq with
      | [], heq =>
        have hb : minKeyAux key b rest = b := by
          simpa using congrArg (fun t => t.headI) heq.symm
        refine ⟨[], s :: rest, ?_, by simp⟩
        rw [hb]
        simp
      | a :: l₁', heq =>
        have ha : a = b ∧ rest = l₁' ++ minKeyAux key b rest :: l₂ := by
          constructor
          · simpa using congrArg (fun t => t.headI) heq.symm
          · simpa using congrArg (fun t => t.tail) heq
      -- a = b sits at the head of l₁, so key m < key b; and key b ≤ key s.
        refine ⟨b :: s :: l₁', l₂, ?_, ?_⟩
        · conv_lhs => rw [ha.2]
          simp
        · intro u hu
          have hmb : key (minKeyAux key b rest) < key b := by
            have := hlt a (List.mem_cons_self _ _)
            rwa [ha.1] at this
          rcases List.mem_cons.1 hu with rfl | hu
          · exact hmb
          rcases List.mem_cons.1 hu with rfl | hu
          · exact lt_of_lt_of_le hmb (by omega)
          · exact hlt u (List.mem_cons_of_mem _ hu)

theorem pyMinKey_mem (key : ℤ → ℤ) {l : List ℤ} (h : l ≠ []) :
    pyMinKey key l ∈ l := by
  match l, h with
  | h₀ :: t, _ =>
    rcases minKeyAux_mem key t h₀ with he | he
    · rw [pyMinKey, he]; exact List.mem_cons_self _ _
    · exact List.mem_cons_of_mem _ he

theorem pyMinKey_le (key : ℤ → ℤ) {l : List ℤ} (h : l ≠ []) :
    ∀ s ∈ l, key (pyMinKey key l) ≤ key s := by
  match l, h with
  | h₀ :: t, _ =>
    intro s hs
    rcases List.mem_cons.1 hs with rfl | hs
    · exact (minKeyAux_le key t s).1
    · exact (minKeyAux_le key t h₀).2 s hs

theorem pyMinKey_first (key : ℤ → ℤ) {l : List ℤ} (h : l ≠ []) :
    ∃ l₁ l₂, l = l₁ ++ pyMinKey key l :: l₂ ∧
      ∀ s ∈ l₁, key (pyMinKey key l) < key s := by
  match l, h with
  | h₀ :: t, _ => exact minKeyAux_first key t h₀

theorem scaleTypesGet_ne_nil (scale_type : String) : scaleTypesGet scale_type ≠ [] := by
  unfold scaleTypesGet
  split_ifs <;> simp

theorem scaleTypesGet_bounds (scale_type : String) :
    ∀ s ∈ scaleTypesGet scale_type, 0 ≤ s ∧ s < 12 := by
  unfold scaleTypesGet
  split_ifs <;> decide

/-! ### Quantization lemmas -/

theorem quantizeWith_closest (scale : List ℤ) (note root : ℤ) :
    quantizeWith scale note root =
      root + (note - root) / 12 * 12 +
        pyMinKey (fun s => |s - (note - root) % 12|) scale := rfl

/-- Quantizing a value of the form `root + octave*12 + c` with `c` a scale
degree (`0 ≤ c < 12`) returns the value unchanged. -/
theorem quantizeWith_fixed (scale : List ℤ) (hne : scale ≠ [])
    (hbd : ∀ s ∈ scale, 0 ≤ s ∧ s < 12) (root octave : ℤ) {c : ℤ} (hc : c ∈ scale) :
    quantizeWith scale (root + octave * 12 + c) root = root + octave * 12 + c := by
  obtain ⟨hc0, hc12⟩ := hbd c hc
  have hd : root + octave * 12 + c - root = c + octave * 12 := by ring
  have hmod : (root + octave * 12 + c - root) % 12 = c := by
    rw [hd]; omega
  have hdiv : (root + octave * 12 + c - root) / 12 = octave := by
    rw [hd]; omega
  have hkey : (fun s => |s - (root + octave * 12 + c - root) % 12|) =
      fun s => |s - c| := by
    funext s; rw [hmod]
  rw [quantizeWith_closest scale, hdiv, hkey]
  have hmem := pyMinKey_mem (fun s => |s - c|) hne
  have hle := pyMinKey_le (fun s => |s - c|) hne c hc
  simp only [sub_self, abs_zero] at hle
  have : |pyMinKey (fun s => |s - c|) scale - c| = 0 :=
    le_antisymm hle (abs_nonneg _)
  have : pyMinKey (fun s => |s - c|) scale = c := by
    have := abs_eq_zero.1 this
    omega
  rw [this]

/-- `quantizeWith` always produces `root + octave*12 + c` with `c` a member
of the scale. -/
theorem quantizeWith_shape (scale : List ℤ) (hne : scale ≠ []) (note root : ℤ) :
    ∃ c ∈ scale,
      quantizeWith scale note root = root + (note - root) / 12 * 12 + c :=
  ⟨pyMinKey (fun s => |s - (note - root) % 12|) scale,
    pyMinKey_mem _ hne, rfl⟩

/-- C9 core: `quantizeWith` is idempotent whenever the scale is a nonempty
list of pitch classes in `[0, 12)`. -/
theorem quantizeWith_idem (scale : List ℤ) (hne : scale ≠ [])
    (hbd : ∀ s ∈ scale, 0 ≤ s ∧ s < 12) (note root : ℤ) :
    quantizeWith scale (quantizeWith scale note root) root =
      quantizeWith scale note root := by
  obtain ⟨c, hc, hshape⟩ := quantizeWith_shape scale hne note root
  rw [hshape]
  exact quantizeWith_fixed scale hne hbd root _ hc

/-- C2: for every MIDI note, scale type in `SCALE_TYPES` and root,
`quantize_to_scale` returns `root + octave*12 + c` where
`octave = (note-root) // 12` is the octave offset of `note` relative to the
root, and `c` is the scale degree whose distance to the relative pitch
class `(note-root) % 12` is minimal; when several degrees are equally
close, `c` is the one appearing first in the scale's ascending interval
list (every degree strictly before `c` in the list is strictly farther). -/
theorem quantize_to_scale_nearest (note root : ℤ) (scale_type : String)
    (hmem : scale_type ∈ SCALE_NAMES) :
    ∃ c ∈ scaleTypesGet scale_type,
      quantize_to_scale note scale_type root =
        root + (note - root) / 12 * 12 + c ∧
      (∀ s ∈ scaleTypesGet scale_type,
        |c - (note - root) % 12| ≤ |s - (note - root) % 12|) ∧
      ∃ l₁ l₂, scaleTypesGet scale_type = l₁ ++ c :: l₂ ∧
        ∀ s ∈ l₁, |c - (note - root) % 12| < |s - (note - root) % 12| := by
  have hne := scaleTypesGet_ne_nil scale_type
  refine ⟨pyMinKey (fun s => |s - (note - root) % 12|) (scaleTypesGet scale_type),
    pyMinKey_mem _ hne, ?_, ?_, ?_⟩
  · exact quantizeWith_closest _ note root
  · exact pyMinKey_le _ hne
  · exact pyMinKey_first _ hne

/-- Witness for C2 at `note = 61`, `root = 60`, scale `major`. -/
theorem quantize_to_scale_nearest_witness :
    "major" ∈ SCALE_NAMES ∧
    ∃ c ∈ scaleTypesGet "major",
      quantize_to_scale 61 "major" 60 = 60 + (61 - 60) / 12 * 12 + c ∧
      (∀ s ∈ scaleTypesGet "major",
        |c - (61 - 60) % 12| ≤ |s - (61 - 60) % 12|) ∧
      ∃ l₁ l₂, scaleTypesGet "major" = l₁ ++ c :: l₂ ∧
        ∀ s ∈ l₁, |c - (61 - 60) % 12| < |s - (61 - 60) % 12| :=
  ⟨by decide, quantize_to_scale_nearest 61 60 "major" (by decide)⟩

/-- C9: `quantize_to_scale` is idempotent for every scale type in
`SCALE_TYPES`, every MIDI note and every root. -/
theorem quantize_to_scale_idem (note root : ℤ) (scale_type : String)
    (hmem : scale_type ∈ SCALE_NAMES) :
    quantize_to_scale (quantize_to_scale note scale_type root) scale_type root =
      quantize_to_scale note scale_type root :=
  quantizeWith_idem (scaleTypesGet scale_type) (scaleTypesGet_ne_nil scale_type)
    (scaleTypesGet_bounds scale_type) note root

/-- Witness for C9 at `note = 65`, `root = 60`, scale `pentatonic`. -/
theorem quantize_to_scale_idem_witness :
    "pentatonic" ∈ SCALE_NAMES ∧
    quantize_to_scale (quantize_to_scale 65 "pentatonic" 60) "pentatonic" 60 =
      quantize_to_scale 65 "pentatonic" 60 :=
  ⟨by decide, quantize_to_scale_idem 65 60 "pentatonic" (by decide)⟩

/-! ## The pregenerated note cache (`MusicEngine._pregenerate_notes`)

`_pregenerate_notes` fills `note_cache` with one entry per
`(instrument, note)` pair for every instrument in `INSTRUMENT_LIST` and
every `note in range(MIN_NOTE, MAX_NOTE + 1)` (48..84 inclusive). -/

/-- The `(instrument, note)` cache keys populated by `_pregenerate_notes`
(key string `f"{instrument_key}_{note}"` modelled as the pair). -/
def pregeneratedNoteKeys : List (String × ℤ) :=
  INSTRUMENT_LIST.flatMap fun instrument_key =>
    (List.range' 48 37).map fun note => (instrument_key, Int.ofNat note)

theorem mem_pregeneratedNoteKeys {instrument : String} {note : ℤ}
    (hi : instrument ∈ INSTRUMENT_LIST) (h1 : 48 ≤ note) (h2 : note ≤ 84) :
    (instrument, note) ∈ pregeneratedNoteKeys := by
  refine List.mem_flatMap.2 ⟨instrument, hi, List.mem_map.2 ⟨note.toNat, ?_, ?_⟩⟩
  · rw [List.mem_range'_1]
    omega
  · have hm : Int.ofNat note.toNat = note := by
      simp [Int.ofNat_toNat]
      omega
    rw [hm]

/-- `pyInt` of a rational in `[lo, hi)` with `0 ≤ lo` lies in `[lo, hi)`. -/
theorem pyInt_bounds {q : ℚ} {lo hi : ℤ} (h0 : 0 ≤ lo)
    (h1 : (lo : ℚ) ≤ q) (h2 : q < (hi : ℚ)) : lo ≤ pyInt q ∧ pyInt q < hi := by
  rw [pyInt, if_pos (le_trans (by exact_mod_cast h0) h1)]
  exact ⟨Int.le_floor.2 h1, Int.floor_lt.2 h2⟩

theorem map_x_to_note_bounds (x width : ℤ) (hw : 0 < width) :
    48 ≤ map_x_to_note x width ∧ map_x_to_note x width ≤ 83 := by
  simp only [map_x_to_note]
  set xc := max 0 (min x (width - 1)) with hxc
  have hxc0 : 0 ≤ xc := le_max_left 0 _
  have hxcw : xc < width := by
    have h1 : min x (width - 1) ≤ width - 1 := min_le_right _ _
    have h2 : xc ≤ width - 1 := max_le (by omega) h1
    omega
  have hwq : (0 : ℚ) < (width : ℚ) := by exact_mod_cast hw
  have hfrac0 : (0 : ℚ) ≤ (xc : ℚ) / (width : ℚ) :=
    div_nonneg (by exact_mod_cast hxc0) (le_of_lt hwq)
  have hfrac1 : (xc : ℚ) / (width : ℚ) < 1 :=
    (div_lt_one hwq).2 (by exact_mod_cast hxcw)
  have hMN : ((MIN_NOTE : ℤ) : ℚ) = 48 := by norm_num [MIN_NOTE]
  have hMX : ((MAX_NOTE : ℤ) : ℚ) = 84 := by norm_num [MAX_NOTE]
  rw [hMN, hMX]
  have hb : (48 : ℤ) ≤ pyInt (48 + (xc : ℚ) / (width : ℚ) * (84 - 48)) ∧
      pyInt (48 + (xc : ℚ) / (width : ℚ) * (84 - 48)) < 84 :=
    pyInt_bounds (by omega) (by nlinarith) (by nlinarith)
  exact ⟨hb.1, by omega⟩

/-- The scale-quantized pitch built from a raw pitch in `[48, 83]` and the
default root 60 stays in `[48, 83]`, for every scale type. -/
theorem quantize_to_scale_bounds (scale_type : String) (n : ℤ)
    (h1 : 48 ≤ n) (h2 : n ≤ 83) :
    48 ≤ quantize_to_scale n scale_type 60 ∧
      quantize_to_scale n scale_type 60 ≤ 83 := by
  obtain ⟨c, hc, hshape⟩ :=
    quantizeWith_shape (scaleTypesGet scale_type) (scaleTypesGet_ne_nil _) n 60
  obtain ⟨hc0, hc12⟩ := scaleTypesGet_bounds scale_type c hc
  rw [quantize_to_scale, hshape]
  omega

/-- C10: for every `x` in `[0, width)` and every scale type, the note
played by `play_note` with the default root (60) lies in
`[MIN_NOTE, MAX_NOTE]`, and its cache key for every instrument is one of
the keys populated by `_pregenerate_notes`. -/
theorem play_note_cache_key_safe (x width : ℤ) (scale_type : String)
    (hx0 : 0 ≤ x) (hxw : x < width) (hmem : scale_type ∈ SCALE_NAMES) :
    MIN_NOTE ≤ quantize_to_scale (map_x_to_note x width) scale_type DEFAULT_ROOT ∧
    quantize_to_scale (map_x_to_note x width) scale_type DEFAULT_ROOT ≤ MAX_NOTE ∧
    ∀ instrument ∈ INSTRUMENT_LIST,
      (instrument, quantize_to_scale (map_x_to_note x width) scale_type DEFAULT_ROOT) ∈
        pregeneratedNoteKeys := by
  simp only [DEFAULT_ROOT, MIN_NOTE, MAX_NOTE]
  have hw : 0 < width := lt_of_le_of_lt hx0 hxw
  obtain ⟨hr1, hr2⟩ := map_x_to_note_bounds x width hw
  obtain ⟨hq1, hq2⟩ := quantize_to_scale_bounds scale_type _ hr1 hr2
  refine ⟨hq1, by omega, ?_⟩
  intro instrument hi
  exact mem_pregeneratedNoteKeys hi hq1 (by omega)

/-- Witness for C10 at `x = 320`, `width = 640`, scale `blues`. -/
theorem cache_key_safe_concrete_witness :
    ((0 : ℤ) ≤ 320 ∧ (320 : ℤ) < 640 ∧ "blues" ∈ SCALE_NAMES) ∧
    (MIN_NOTE ≤ quantize_to_scale (map_x_to_note 320 640) "blues" DEFAULT_ROOT ∧
    quantize_to_scale (map_x_to_note 320 640) "blues" DEFAULT_ROOT ≤ MAX_NOTE ∧
    ∀ instrument ∈ INSTRUMENT_LIST,
      (instrument, quantize_to_scale (map_x_to_note 320 640) "blues" DEFAULT_ROOT) ∈
        pregeneratedNoteKeys) :=
  ⟨⟨by decide, by decide, by decide⟩,
    play_note_cache_key_safe 320 640 "blues" (by decide) (by decide) (by decide)⟩

/-! ## music_engine.py: engine state and triggers

The mutable attributes of `MusicEngine` that the trigger paths read or
write. The interval/threshold attributes are set once in `__init__` and
never reassigned, so they are modelled as constants below. The sound
cache is modelled by a Boolean hit-function `cache : String → ℤ → Bool`
(whether `note_cache.get(f"{instrument}_{note}")` yields a sound);
successful playback of a pygame sound has no effect that the engine
observes, so "a sound was played" is reflected in return values. -/

/-- `MusicEngine.min_note_interval = 0.02`. -/
def min_note_interval : ℚ := 1/50

/-- `MusicEngine.preview_min_interval = 0.08`. -/
def preview_min_interval : ℚ := 2/25

/-- `MusicEngine.preview_min_distance = 30` (pixels). -/
def preview_min_distance : ℤ := 30

/-- `MusicEngine.bass_interval = 0.5` (seconds). -/
def bass_interval : ℚ := 1/2

/-- `music_engine.NoteEvent` (duration in milliseconds, timestamp in
seconds relative to recording start). -/
structure NoteEvent where
  note : ℤ
  velocity : ℤ
  duration : ℤ
  instrument : String
  timestamp : ℚ
  x : ℤ
  y : ℤ
deriving Repr, DecidableEq

/-- The `MusicEngine` attributes used by the modelled operations. -/
structure EngineState where
  audio_initialized : Bool
  is_playing : Bool
  is_recording : Bool
  current_instrument : String
  scale_type : String
  root_note : ℤ
  last_note : ℤ
  last_note_time : ℚ
  last_preview_x : ℤ
  last_preview_y : ℤ
  last_preview_time : ℚ
  recorded_notes : List NoteEvent
  recording_start_time : ℚ
  bass_enabled : Bool
  last_bass_time : ℚ
deriving Repr, DecidableEq

/-- `MusicEngine.play_bass_note(root_note=None)` at wall-clock time
`current_time`. Returns the MIDI note of the bass voice that was played
(`none` when nothing was played: bass disabled, audio missing, throttled,
or the cache key `f'bass_{bass_note}'` misses) together with the updated
state. `bass_cache n` models `note_cache.get(f'bass_{n}')`
(`_pregenerate_bass` fills notes 24..48). -/
def play_bass_note (bass_cache : ℤ → Bool) (s : EngineState)
    (current_time : ℚ) (root_arg : Option ℤ) : Option ℤ × EngineState :=
  if s.bass_enabled && s.audio_initialized then
    if current_time - s.last_bass_time < bass_interval then (none, s)
    else
      -- root_note = root_note if given else self.root_note
      let root_note := root_arg.getD s.root_note
      -- "低两个八度" (two octaves down): bass_note = (root_note % 12) + 24
      let bass_note := root_note % 12 + 24
      if bass_cache bass_note then
        (some bass_note, { s with last_bass_time := current_time })
      else (none, { s with last_bass_time := current_time })
  else (none, s)

/-- C1 (code bug): with bass enabled, audio initialized and the throttle
elapsed, `play_bass_note` at the default root 60 plays the bass voice with
MIDI note `(60 % 12) + 24 = 24`, not `60 - 24 = 36`: the played note is
NOT the root minus two octaves, contradicting the code's own
"两个八度" (two octaves down) comment and the spec. -/
theorem play_bass_note_not_root_minus_24 :
    (play_bass_note (fun n => decide (24 ≤ n ∧ n ≤ 48))
        { audio_initialized := true, is_playing := true, is_recording := false,
          current_instrument := "piano", scale_type := "pentatonic",
          root_note := 60, last_note := -1, last_note_time := 0,
          last_preview_x := 0, last_preview_y := 0, last_preview_time := 0,
          recorded_notes := [], recording_start_time := 0,
          bass_enabled := true, last_bass_time := 0 } 1 none).1 = some 24 ∧
    (24 : ℤ) ≠ 60 - 24 := by
  constructor
  · norm_num [play_bass_note, bass_interval]
  · decide

/-- `MusicEngine.play_note(x, y, thickness, width, height)` at wall-clock
time `t`. `cache i n` models whether `note_cache.get(f"{i}_{n}")` yields a
sound. Python returns early (`if not self.is_playing or not
self.audio_initialized`, the rate limit, the same-note debounce, a cache
miss); the model returns the unchanged state in those branches. -/
def play_note (cache : String → ℤ → Bool) (s : EngineState)
    (x y thickness width height : ℤ) (t : ℚ) : EngineState :=
  if s.is_playing && s.audio_initialized then
    if t - s.last_note_time < min_note_interval then s
    else
      let note := quantize_to_scale (map_x_to_note x width) s.scale_type s.root_note
      if note = s.last_note ∧ t - s.last_note_time < 1/5 then s
      else if cache s.current_instrument note then
        let duration := map_y_to_duration y height
        let velocity := map_thickness_to_volume thickness
        if s.is_recording then
          { s with
            last_note := note
            last_note_time := t
            recorded_notes := s.recorded_notes ++
              [{ note := note, velocity := velocity, duration := duration,
                 instrument := s.current_instrument,
                 timestamp := t - s.recording_start_time, x := x, y := y }] }
        else { s with last_note := note, last_note_time := t }
      else s
  else s

/-- `MusicEngine.play_preview_note(x, y, thickness, width, height)` at
wall-clock time `t`; the returned `Bool` is the Python return value
(whether a sound was triggered). The Python code compares
`distance = sqrt(dx² + dy²)` with `preview_min_distance = 30`; for integer
coordinates that comparison is exactly `dx² + dy² ≥ 900`, which is how the
condition is modelled (squares are non-negative and `sqrt` is monotone). -/
def play_preview_note (cache : String → ℤ → Bool) (s : EngineState)
    (x y thickness width height : ℤ) (t : ℚ) : EngineState × Bool :=
  if s.is_playing && s.audio_initialized then
    let dx := x - s.last_preview_x
    let dy := y - s.last_preview_y
    let time_elapsed := t - s.last_preview_time
    -- should_trigger = (time_elapsed >= preview_min_interval) or
    --                  (distance >= preview_min_distance and time_elapsed >= 0.02)
    if (preview_min_interval ≤ time_elapsed) ∨
        (preview_min_distance * preview_min_distance ≤ dx * dx + dy * dy ∧
          (1/50 : ℚ) ≤ time_elapsed) then
      let note := quantize_to_scale (map_x_to_note x width) s.scale_type s.root_note
      if note = s.last_note ∧ time_elapsed < 3/20 then (s, false)
      else if cache s.current_instrument note then
        let velocity := map_thickness_to_volume thickness
        let s1 : EngineState :=
          { s with
            last_note := note
            last_note_time := t
            last_preview_x := x
            last_preview_y := y
            last_preview_time := t }
        if s.is_recording then
          ({ s1 with
              recorded_notes := s.recorded_notes ++
                [{ note := note, velocity := velocity,
                   duration := map_y_to_duration y height,
                   instrument := s.current_instrument,
                   timestamp := t - s.recording_start_time, x := x, y := y }] },
            true)
        else (s1, true)
      else (s, false)
    else (s, false)
  else (s, false)

/-- `MusicEngine.reset_preview_state()`. -/
def reset_preview_state (s : EngineState) : EngineState :=
  { s with
    last_preview_x := 0
    last_preview_y := 0
    last_preview_time := 0
    last_note := -1 }

/-- A trigger (`play_preview_note` returning `True`) records the call's
position and time into the preview state. -/
theorem play_preview_note_true_state (cache : String → ℤ → Bool)
    (s : EngineState) (x y thickness width height : ℤ) (t : ℚ)
    (h : (play_preview_note cache s x y thickness width height t).2 = true) :
    (play_preview_note cache s x y thickness width height t).1.last_preview_x = x ∧
    (play_preview_note cache s x y thickness width height t).1.last_preview_y = y ∧
    (play_preview_note cache s x y thickness width height t).1.last_preview_time = t := by
  simp only [play_preview_note] at *
  split_ifs at h ⊢ <;> simp_all

/-- A trigger implies the time-OR-distance gate was open. -/
theorem play_preview_note_true_gate (cache : String → ℤ → Bool)
    (s : EngineState) (x y thickness width height : ℤ) (t : ℚ)
    (h : (play_preview_note cache s x y thickness width height t).2 = true) :
    preview_min_interval ≤ t - s.last_preview_time ∨
      (preview_min_distance * preview_min_distance ≤
          (x - s.last_preview_x) * (x - s.last_preview_x) +
            (y - s.last_preview_y) * (y - s.last_preview_y) ∧
        (1/50 : ℚ) ≤ t - s.last_preview_time) := by
  simp only [play_preview_note] at h
  split_ifs at h <;> simp_all

/-- C5: `play_preview_note` triggers a sound exactly when
(elapsed ≥ `preview_min_interval`) OR (moved distance ≥
`preview_min_distance` AND elapsed ≥ 0.02), subject to the same-note
debounce (given playback enabled, audio initialized, and a cache hit);
consequently two calls where the second comes less than
`preview_min_interval` after the first and moves less than
`preview_min_distance` pixels trigger at most once. The pixel-distance
comparison `sqrt(dx²+dy²) ≥ 30` is stated as `dx²+dy² ≥ 30²`, which is
equivalent. -/
theorem play_preview_note_gating :
    (∀ (cache : String → ℤ → Bool) (s : EngineState)
        (x y thickness width height : ℤ) (t : ℚ),
      s.is_playing = true → s.audio_initialized = true →
      cache s.current_instrument
        (quantize_to_scale (map_x_to_note x width) s.scale_type s.root_note) = true →
      ((play_preview_note cache s x y thickness width height t).2 = true ↔
        ((preview_min_interval ≤ t - s.last_preview_time ∨
          (preview_min_distance * preview_min_distance ≤
              (x - s.last_preview_x) * (x - s.last_preview_x) +
                (y - s.last_preview_y) * (y - s.last_preview_y) ∧
            (1/50 : ℚ) ≤ t - s.last_preview_time)) ∧
        ¬(quantize_to_scale (map_x_to_note x width) s.scale_type s.root_note =
            s.last_note ∧ t - s.last_preview_time < 3/20)))) ∧
    (∀ (cache : String → ℤ → Bool) (s : EngineState)
        (x1 y1 thickness1 x2 y2 thickness2 width height : ℤ) (t1 t2 : ℚ),
      t2 - t1 < preview_min_interval →
      (x2 - x1) * (x2 - x1) + (y2 - y1) * (y2 - y1) <
        preview_min_distance * preview_min_distance →
      ¬((play_preview_note cache s x1 y1 thickness1 width height t1).2 = true ∧
        (play_preview_note cache
          (play_preview_note cache s x1 y1 thickness1 width height t1).1
          x2 y2 thickness2 width height t2).2 = true)) := by
  constructor
  · intro cache s x y thickness width height t hp ha hcache
    have hcond : (s.is_playing && s.audio_initialized) = true := by
      rw [hp, ha]; rfl
    cases hR : s.is_recording <;>
      simp only [play_preview_note, hcond, hR, hcache, if_true] <;>
      split_ifs with h1 h2 <;> simp_all
  · intro cache s x1 y1 thickness1 x2 y2 thickness2 width height t1 t2 ht hd hcontra
    obtain ⟨hb1, hb2⟩ := hcontra
    obtain ⟨hx, hy, htime⟩ :=
      play_preview_note_true_state cache s x1 y1 thickness1 width height t1 hb1
    have hgate :=
      play_preview_note_true_gate cache _ x2 y2 thickness2 width height t2 hb2
    rw [hx, hy, htime] at hgate
    rcases hgate with hgate | ⟨hgate, _⟩
    · linarith
    · omega

/-- A concrete engine state (fresh engine, audio available, all defaults)
used by the witnesses. -/
def sampleEngineState : EngineState where
  audio_initialized := true
  is_playing := true
  is_recording := false
  current_instrument := "piano"
  scale_type := "pentatonic"
  root_note := 60
  last_note := -1
  last_note_time := 0
  last_preview_x := 0
  last_preview_y := 0
  last_preview_time := 0
  recorded_notes := []
  recording_start_time := 0
  bass_enabled := false
  last_bass_time := 0

/-- Witness for C5: two preview calls 0.05s and ~14px apart trigger at
most once. -/
theorem play_preview_note_gating_witness :
    ((1/20 : ℚ) - 0 < preview_min_interval ∧
      ((10 : ℤ) - 0) * (10 - 0) + ((10 : ℤ) - 0) * (10 - 0) <
        preview_min_distance * preview_min_distance) ∧
    ¬((play_preview_note (fun _ _ => true) sampleEngineState 0 0 10 640 480 0).2 = true ∧
      (play_preview_note (fun _ _ => true)
        (play_preview_note (fun _ _ => true) sampleEngineState 0 0 10 640 480 0).1
        10 10 10 640 480 (1/20)).2 = true) :=
  ⟨⟨by norm_num [preview_min_interval], by norm_num [preview_min_distance]⟩,
    play_preview_note_gating.2 (fun _ _ => true) sampleEngineState
      0 0 10 10 10 10 640 480 0 (1/20)
      (by norm_num [preview_min_interval]) (by norm_num [preview_min_distance])⟩

/-! ## Recording traces (for the C6 invariant)

A trace is a sequence of trigger calls made by the gesture layer while
recording: each entry is one call to `play_note`, `play_preview_note` or
`reset_preview_state` together with the wall-clock time `time.time()` at
which it runs. -/

/-- One engine call of a recording session. -/
inductive EngineOp where
  | note (x y thickness width height : ℤ)
  | preview (x y thickness width height : ℤ)
  | resetPreview
deriving Repr, DecidableEq

/-- Run one call against the engine state. -/
def applyOp (cache : String → ℤ → Bool) (s : EngineState) :
    EngineOp → ℚ → EngineState
  | .note x y thickness width height, t =>
      play_note cache s x y thickness width height t
  | .preview x y thickness width height, t =>
      (play_preview_note cache s x y thickness width height t).1
  | .resetPreview, _ => reset_preview_state s

/-- Run a whole trace of calls. -/
def runTrace (cache : String → ℤ → Bool) (s : EngineState)
    (trace : List (EngineOp × ℚ)) : EngineState :=
  trace.foldl (fun st p => applyOp cache st p.1 p.2) s

/-- One call appends at most one `NoteEvent`, whose timestamp is the call
time minus the recording origin; the origin itself is never touched. -/
theorem applyOp_recorded (cache : String → ℤ → Bool) (s : EngineState)
    (op : EngineOp) (t : ℚ) :
    ((applyOp cache s op t).recorded_notes = s.recorded_notes ∨
      ∃ ev, (applyOp cache s op t).recorded_notes = s.recorded_notes ++ [ev] ∧
        ev.timestamp = t - s.recording_start_time) ∧
    (applyOp cache s op t).recording_start_time = s.recording_start_time := by
  cases op <;>
    simp only [applyOp, play_note, play_preview_note, reset_preview_state] <;>
    first
      | (split_ifs <;> simp)
      | simp

theorem runTrace_chain (cache : String → ℤ → Bool) :
    ∀ (trace : List (EngineOp × ℚ)) (s : EngineState),
    List.Pairwise (· < ·) (trace.map Prod.snd) →
    List.Chain' (fun a b => a.timestamp < b.timestamp) s.recorded_notes →
    (∀ e ∈ s.recorded_notes, ∀ p ∈ trace,
      e.timestamp < p.2 - s.recording_start_time) →
    List.Chain' (fun a b => a.timestamp < b.timestamp)
      (runTrace cache s trace).recorded_notes := by
  intro trace
  induction trace with
  | nil => intro s _ hchain _; exact hchain
  | cons p rest ih =>
    intro s hpair hchain hbound
    obtain ⟨op, t⟩ := p
    rw [List.map_cons, List.pairwise_cons] at hpair
    obtain ⟨hlt, hpair⟩ := hpair
    have hstep : runTrace cache s ((op, t) :: rest) =
        runTrace cache (applyOp cache s op t) rest := rfl
    rw [hstep]
    obtain ⟨hrec, hstart⟩ := applyOp_recorded cache s op t
    have hb0 : ∀ e ∈ s.recorded_notes, e.timestamp < t - s.recording_start_time :=
      fun e he => hbound e he (op, t) (List.mem_cons_self _ _)
    apply ih
    · exact hpair
    · rcases hrec with hrec | ⟨ev, hrec, hts⟩
      · rw [hrec]; exact hchain
      · rw [hrec]
        apply List.Chain'.append hchain (List.chain'_singleton ev)
        intro a ha b hb
        simp only [List.head?_cons, Option.mem_def, Option.some.injEq] at hb
        subst hb
        rw [hts]
        exact hb0 a (List.mem_of_mem_getLast? ha)
    · intro e he q hq
      rw [hstart]
      have hq2 : t < q.2 := hlt q.2 (List.mem_map_of_mem Prod.snd hq)
      rcases hrec with hrec | ⟨ev, hrec, hts⟩
      · rw [hrec] at he
        have := hb0 e he
        linarith
      · rw [hrec] at he
        rcases List.mem_append.1 he with he | he
        · have := hb0 e he
          linarith
        · simp only [List.mem_singleton] at he
          subst he
          rw [hts]
          linarith

/-- C6: during a recording session (interleaved `play_note`,
`play_preview_note` and `reset_preview_state` calls at strictly
increasing wall-clock times, starting from an empty recording buffer),
the timestamps of the `NoteEvent`s in the recording buffer are strictly
increasing. -/
theorem recording_timestamps_increasing (cache : String → ℤ → Bool)
    (s : EngineState) (trace : List (EngineOp × ℚ))
    (hrec : s.is_recording = true) (hempty : s.recorded_notes = [])
    (htimes : List.Chain' (· < ·) (trace.map Prod.snd)) :
    List.Chain' (fun a b => a.timestamp < b.timestamp)
      (runTrace cache s trace).recorded_notes := by
  apply runTrace_chain cache trace s
  · exact List.chain'_iff_pairwise.1 htimes
  · rw [hempty]; exact List.chain'_nil
  · rw [hempty]; simp

/-- Witness for C6: a three-call trace at times 1, 2, 3. -/
theorem recording_timestamps_increasing_witness :
    ({ sampleEngineState with is_recording := true }.is_recording = true ∧
      { sampleEngineState with is_recording := true }.recorded_notes = [] ∧
      List.Chain' (· < ·)
        (([(EngineOp.note 100 100 10 640 480, (1 : ℚ)),
           (EngineOp.resetPreview, 2),
           (EngineOp.preview 300 200 10 640 480, 3)]).map Prod.snd)) ∧
    List.Chain' (fun a b => a.timestamp < b.timestamp)
      (runTrace (fun _ _ => true) { sampleEngineState with is_recording := true }
        [(EngineOp.note 100 100 10 640 480, (1 : ℚ)),
         (EngineOp.resetPreview, 2),
         (EngineOp.preview 300 200 10 640 480, 3)]).recorded_notes :=
  ⟨⟨rfl, rfl, by norm_num⟩,
    recording_timestamps_increasing (fun _ _ => true)
      { sampleEngineState with is_recording := true }
      [(EngineOp.note 100 100 10 640 480, (1 : ℚ)),
       (EngineOp.resetPreview, 2),
       (EngineOp.preview 300 200 10 640 480, 3)]
      rfl rfl (by norm_num)⟩

/-! ## project_model.py -/

/-- `project_model.Point` (a drawn point; `t` is seconds relative to the
stroke start). -/
structure Point where
  x : ℤ
  y : ℤ
  t : ℚ
  thickness : ℤ
deriving Repr, DecidableEq

/-- `project_model.Stroke` (only the fields the sequencer reads). -/
structure Stroke where
  instrument : String
  points : List Point
deriving Repr, DecidableEq

/-- `project_model.Project` (only the fields the sequencer reads). -/
structure Project where
  bpm : ℤ
  quantize : String
  scale : String
  root_note : ℤ
  width : ℤ
  strokes : List Stroke
deriving Repr, DecidableEq

/-- `project_model.quantize_time(t, bpm, quantize)`: snap `t` to the
nearest multiple of the grid `beat_duration / {1,2,4}`. -/
def quantize_time (t : ℚ) (bpm : ℤ) (quantize : String) : ℚ :=
  let beat_duration := 60 / (bpm : ℚ)
  let grid :=
    if quantize = "1/4" then beat_duration
    else if quantize = "1/8" then beat_duration / 2
    else if quantize = "1/16" then beat_duration / 4
    else beat_duration / 2
  (pyRound (t / grid) : ℚ) * grid

/-! ### `pyRound` and `quantize_time` are monotone -/

theorem le_pyRound (q : ℚ) : ⌊q⌋ ≤ pyRound q := by
  unfold pyRound
  split_ifs <;> omega

theorem pyRound_le (q : ℚ) : pyRound q ≤ ⌊q⌋ + 1 := by
  unfold pyRound
  split_ifs <;> omega

theorem pyRound_mono {q r : ℚ} (h : q ≤ r) : pyRound q ≤ pyRound r := by
  rcases lt_or_ge ⌊q⌋ ⌊r⌋ with hf | hf
  · calc pyRound q ≤ ⌊q⌋ + 1 := pyRound_le q
      _ ≤ ⌊r⌋ := by omega
      _ ≤ pyRound r := le_pyRound r
  · have hfe : ⌊q⌋ = ⌊r⌋ := le_antisymm (Int.floor_le_floor h) hf
    unfold pyRound
    rw [hfe]
    split_ifs <;> first
      | omega
      | linarith

theorem quantize_time_mono {t1 t2 : ℚ} (bpm : ℤ) (quantize : String)
    (hb : 0 < bpm) (h : t1 ≤ t2) :
    quantize_time t1 bpm quantize ≤ quantize_time t2 bpm quantize := by
  unfold quantize_time
  have hbq : (0 : ℚ) < (bpm : ℚ) := by exact_mod_cast hb
  have hbeat : (0 : ℚ) < 60 / (bpm : ℚ) := by positivity
  set grid := if quantize = "1/4" then 60 / (bpm : ℚ)
    else if quantize = "1/8" then 60 / (bpm : ℚ) / 2
    else if quantize = "1/16" then 60 / (bpm : ℚ) / 4
    else 60 / (bpm : ℚ) / 2 with hgrid
  have hgpos : 0 < grid := by
    rw [hgrid]
    split_ifs <;> positivity
  have hdiv : t1 / grid ≤ t2 / grid :=
    div_le_div_of_nonneg_right h hgpos.le
  have hround : pyRound (t1 / grid) ≤ pyRound (t2 / grid) := pyRound_mono hdiv
  have hcast : ((pyRound (t1 / grid) : ℤ) : ℚ) ≤ ((pyRound (t2 / grid) : ℤ) : ℚ) := by
    exact_mod_cast hround
  exact mul_le_mul_of_nonneg_right hcast (le_of_lt hgpos)

/-! ## sequencer.py -/

/-- `sequencer.PlaybackMode`. -/
inductive PlaybackMode where
  | scan
  | timeline
deriving Repr, DecidableEq

/-- `sequencer.SequenceEvent`. -/
structure SequenceEvent where
  time : ℚ
  note : ℤ
  velocity : ℤ
  duration : ℚ
  instrument : String
  x : ℤ
  y : ℤ
deriving Repr, DecidableEq

/-- The `Sequencer` attributes used by the modelled operations
(`playback_speed` and the callbacks play no role in them). -/
structure SequencerState where
  project : Option Project
  is_playing : Bool
  is_paused : Bool
  current_time : ℚ
  bpm : ℤ
  quantize : String
  mode : PlaybackMode
  scan_duration : ℚ
  scan_position : ℤ
  scan_width : ℤ
  events : List SequenceEvent
  event_index : ℕ
deriving Repr, DecidableEq

/-- The point dicts collected by `generate_scan_events` from every stroke
(`{'x': .., 'y': .., 'thickness': .., 'instrument': stroke.instrument}`). -/
structure ScanPoint where
  x : ℤ
  y : ℤ
  thickness : ℤ
  instrument : String
deriving Repr, DecidableEq

/-- `all_points.sort(key=lambda p: p['x'])` sorts by this key. -/
def ptLE (p q : ScanPoint) : Prop := p.x ≤ q.x

instance : DecidableRel ptLE := fun p q => inferInstanceAs (Decidable (p.x ≤ q.x))

instance : IsTotal ScanPoint ptLE := ⟨fun a b => le_total a.x b.x⟩

instance : IsTrans ScanPoint ptLE := ⟨fun _ _ _ => le_trans⟩

/-- Collect every point of every stroke (loop order preserved). -/
def collectPoints (strokes : List Stroke) : List ScanPoint :=
  strokes.flatMap fun stroke =>
    stroke.points.map fun p =>
      { x := p.x, y := p.y, thickness := p.thickness, instrument := stroke.instrument }

/-- `events[-1].time` (junk value 0 for an empty list; the code only reads
it under `len(events) > 0`). -/
def lastEventTime (events : List SequenceEvent) : ℚ :=
  match events.getLast? with
  | some e => e.time
  | none => 0

/-- Trigger time of a scan point:
`t = (x / scan_width) * scan_duration` quantized to the beat grid. -/
def scanEventTime (s : SequencerState) (x : ℤ) : ℚ :=
  quantize_time (((x : ℚ) / (s.scan_width : ℚ)) * s.scan_duration) s.bpm s.quantize

/-- Note of a scan point (`map_x_to_note` then `quantize_to_scale` with the
project's scale and root). -/
def scanEventNote (s : SequencerState) (scale : String) (root : ℤ) (x : ℤ) : ℤ :=
  quantize_to_scale (map_x_to_note x s.scan_width) scale root

/-- The `for p in all_points` loop of `generate_scan_events`:
skip points within `min_x_gap = scan_width // 32` of the last emitted
point, skip a repeated note within 0.1s of the last emitted event,
otherwise append an event and update `last_note`/`last_x`. -/
def scanLoop (s : SequencerState) (scale : String) (root : ℤ) :
    List ScanPoint → List SequenceEvent → ℤ → ℤ → List SequenceEvent
  | [], events, _, _ => events
  | p :: ps, events, last_note, last_x =>
    if 0 ≤ last_x ∧ |p.x - last_x| < s.scan_width / 32 then
      scanLoop s scale root ps events last_note last_x
    else
      let t := scanEventTime s p.x
      let note := scanEventNote s scale root p.x
      if note = last_note ∧ events ≠ [] ∧ |t - lastEventTime events| < 1/10 then
        scanLoop s scale root ps events last_note last_x
      else
        scanLoop s scale root ps
          (events ++
            [{ time := t, note := note,
               velocity := map_thickness_to_volume p.thickness,
               duration := (60 / (s.bpm : ℚ)) / 2,
               instrument := p.instrument, x := p.x, y := p.y }])
          note p.x

/-- `Sequencer.generate_scan_events`. Python's stable `list.sort` by the
`x` key is modelled by the (stable) insertion sort on `ptLE`. -/
def generate_scan_events (s : SequencerState) : List SequenceEvent :=
  match s.project with
  | none => []
  | some project =>
    if project.strokes = [] then []
    else
      scanLoop s project.scale project.root_note
        (List.insertionSort ptLE (collectPoints project.strokes)) [] (-1) (-1)

/-- `Sequencer.generate_timeline_events`: per stroke, keep every
`sample_interval`-th point (`sample_interval = max(1, len(points) // 8)`),
quantize its timestamp, then sort everything by time (stable sort). -/
def generate_timeline_events (s : SequencerState) : List SequenceEvent :=
  match s.project with
  | none => []
  | some project =>
    if project.strokes = [] then []
    else
      List.insertionSort (fun a b => a.time ≤ b.time)
        (project.strokes.flatMap fun stroke =>
          let sample_interval := max 1 (stroke.points.length / 8)
          (stroke.points.enum.filter fun ip => ip.1 % sample_interval = 0).map
            fun ip =>
              { time := quantize_time ip.2.t s.bpm s.quantize
                note := quantize_to_scale (map_x_to_note ip.2.x project.width)
                  project.scale project.root_note
                velocity := map_thickness_to_volume ip.2.thickness
                duration := (60 / (s.bpm : ℚ)) / 2
                instrument := stroke.instrument
                x := ip.2.x
                y := ip.2.y })

/-- `Sequencer.prepare_playback(mode=None)`. -/
def prepare_playback (s : SequencerState) (mode : Option PlaybackMode) :
    SequencerState :=
  let s1 := match mode with
    | some m => { s with mode := m }
    | none => s
  let evs := if s1.mode = PlaybackMode.scan then generate_scan_events s1
    else generate_timeline_events s1
  { s1 with
    events := evs
    event_index := 0
    current_time := 0
    scan_position := 0 }

/-- `Sequencer.start()`: the returned `Bool` records whether a playback
loop thread was launched. -/
def start (s : SequencerState) : SequencerState × Bool :=
  if s.is_playing then (s, false)
  else
    let s1 := prepare_playback s none
    ({ s1 with
        is_playing := true
        is_paused := false }, true)

/-- C8: `start()` on an already-playing `Sequencer` is a no-op: the whole
state (in particular `is_playing`, `is_paused`, `current_time`,
`event_index`, `scan_position`, `events`) is unchanged and no scheduling
loop is launched. -/
theorem start_noop_when_playing (s : SequencerState) (h : s.is_playing = true) :
    start s = (s, false) := by
  simp [start, h]

/-- A concrete already-playing sequencer used by the C8 witness. -/
def samplePlayingSequencer : SequencerState where
  project := none
  is_playing := true
  is_paused := false
  current_time := 2
  bpm := 120
  quantize := "1/8"
  mode := PlaybackMode.scan
  scan_duration := 4
  scan_position := 37
  scan_width := 640
  events := []
  event_index := 0

/-- Witness for C8. -/
theorem start_noop_when_playing_witness :
    samplePlayingSequencer.is_playing = true ∧
    start samplePlayingSequencer = (samplePlayingSequencer, false) :=
  ⟨rfl, start_noop_when_playing samplePlayingSequencer rfl⟩

/-! ### C3: scan events are time-sorted and deduplicated -/

theorem scanEventTime_mono (s : SequencerState) (hw : 0 < s.scan_width)
    (hb : 0 < s.bpm) (hd : 0 ≤ s.scan_duration) {x1 x2 : ℤ} (h : x1 ≤ x2) :
    scanEventTime s x1 ≤ scanEventTime s x2 := by
  unfold scanEventTime
  apply quantize_time_mono _ _ hb
  have hwq : (0 : ℚ) < (s.scan_width : ℚ) := by exact_mod_cast hw
  have hx : (x1 : ℚ) ≤ (x2 : ℚ) := by exact_mod_cast h
  have hdiv : (x1 : ℚ) / (s.scan_width : ℚ) ≤ (x2 : ℚ) / (s.scan_width : ℚ) :=
    div_le_div_of_nonneg_right hx hwq.le
  exact mul_le_mul_of_nonneg_right hdiv hd

theorem getLast?_ne_nil {α : Type} {l : List α} {a : α}
    (h : l.getLast? = some a) : l ≠ [] := by
  intro h'
  subst h'
  simp at h

/-- Invariant of the emission loop: on x-sorted input, starting from a
time-sorted, deduplicated event list whose last entry (if any) was
emitted at `last_x ≤` every remaining x with note `last_note`, the loop
returns a time-sorted, deduplicated list. -/
theorem scanLoop_good (s : SequencerState) (scale : String) (root : ℤ)
    (hw : 0 < s.scan_width) (hb : 0 < s.bpm) (hd : 0 ≤ s.scan_duration) :
    ∀ (pts : List ScanPoint) (events : List SequenceEvent) (last_note last_x : ℤ),
    List.Pairwise ptLE pts →
    List.Chain' (fun a b => a.time ≤ b.time) events →
    List.Chain' (fun a b => ¬(b.note = a.note ∧ |b.time - a.time| < 1/10)) events →
    (events = [] ∨
      ∃ e, events.getLast? = some e ∧ e.time = scanEventTime s last_x ∧
        e.note = last_note ∧ ∀ q ∈ pts, last_x ≤ q.x) →
    List.Chain' (fun a b => a.time ≤ b.time)
        (scanLoop s scale root pts events last_note last_x) ∧
      List.Chain' (fun a b => ¬(b.note = a.note ∧ |b.time - a.time| < 1/10))
        (scanLoop s scale root pts events last_note last_x) := by
  intro pts
  induction pts with
  | nil =>
    intro events last_note last_x _ h1 h2 _
    exact ⟨h1, h2⟩
  | cons p ps ih =>
    intro events last_note last_x hpair h1 h2 hinv
    rw [List.pairwise_cons] at hpair
    obtain ⟨hpx, hpair⟩ := hpair
    simp only [scanLoop]
    split_ifs with hgap hskip
    · -- too close in x to the previous emitted point: skipped
      apply ih events last_note last_x hpair h1 h2
      rcases hinv with h | ⟨e, he1, he2, he3, he4⟩
      · exact Or.inl h
      · exact Or.inr ⟨e, he1, he2, he3,
          fun q hq => he4 q (List.mem_cons_of_mem _ hq)⟩
    · -- repeated note within 0.1s of the previous emitted event: skipped
      apply ih events last_note last_x hpair h1 h2
      rcases hinv with h | ⟨e, he1, he2, he3, he4⟩
      · exact Or.inl h
      · exact Or.inr ⟨e, he1, he2, he3,
          fun q hq => he4 q (List.mem_cons_of_mem _ hq)⟩
    · -- emit an event for p
      apply ih _ _ _ hpair
      · -- time-sortedness is preserved by the append
        apply List.Chain'.append h1 (List.chain'_singleton _)
        intro a ha b hb
        simp only [List.head?_cons, Option.mem_def, Option.some.injEq] at hb
        subst hb
        rcases hinv with rfl | ⟨e, he1, he2, he3, he4⟩
        · simp at ha
        · have hae : a = e := by
            rw [Option.mem_def, he1, Option.some.injEq] at ha
            exact ha.symm
          subst hae
          rw [he2]
          exact scanEventTime_mono s hw hb hd (he4 p (List.mem_cons_self _ _))
      · -- the no-repeat property is preserved by the append
        apply List.Chain'.append h2 (List.chain'_singleton _)
        intro a ha b hb
        simp only [List.head?_cons, Option.mem_def, Option.some.injEq] at hb
        subst hb
        rcases hinv with rfl | ⟨e, he1, he2, he3, he4⟩
        · simp at ha
        · have hae : a = e := by
            rw [Option.mem_def, he1, Option.some.injEq] at ha
            exact ha.symm
          subst hae
          intro hcon
          apply hskip
          refine ⟨?_, getLast?_ne_nil he1, ?_⟩
          · rw [← he3]
            exact hcon.1
          · have hlast : lastEventTime events = a.time := by
              unfold lastEventTime
              rw [he1]
            rw [hlast]
            exact hcon.2
      · -- invariant for the recursive call
        refine Or.inr ⟨_, List.getLast?_concat _, rfl, rfl, ?_⟩
        intro q hq
        exact hpx q hq

/-- C3: for every sequencer state with positive canvas width, positive BPM
and non-negative scan duration (in particular for every `Project` loaded
via `set_project`), the list returned by `generate_scan_events` is sorted
by non-decreasing time, and no two adjacent events share a note with a
time difference below 0.1 s. -/
theorem generate_scan_events_ordered (s : SequencerState)
    (hw : 0 < s.scan_width) (hb : 0 < s.bpm) (hd : 0 ≤ s.scan_duration) :
    List.Chain' (fun a b => a.time ≤ b.time) (generate_scan_events s) ∧
    List.Chain' (fun a b => ¬(b.note = a.note ∧ |b.time - a.time| < 1/10))
      (generate_scan_events s) := by
  unfold generate_scan_events
  split
  · exact ⟨List.chain'_nil, List.chain'_nil⟩
  · split_ifs with hstr
    · exact ⟨List.chain'_nil, List.chain'_nil⟩
    · apply scanLoop_good s _ _ hw hb hd _ [] (-1) (-1)
      · exact List.sorted_insertionSort ptLE _
      · exact List.chain'_nil
      · exact List.chain'_nil
      · exact Or.inl rfl

/-- A concrete sequencer with a two-stroke project (defaults of
`Sequencer.__init__` and `Project`), used by the C3 witness. -/
def sampleScanSequencer : SequencerState where
  project := some
    { bpm := 120
      quantize := "1/8"
      scale := "pentatonic"
      root_note := 60
      width := 640
      strokes :=
        [{ instrument := "piano"
           points := [{ x := 100, y := 50, t := 0, thickness := 10 },
                      { x := 300, y := 80, t := 1/2, thickness := 12 }] },
         { instrument := "guitar"
           points := [{ x := 200, y := 120, t := 0, thickness := 8 }] }] }
  is_playing := false
  is_paused := false
  current_time := 0
  bpm := 120
  quantize := "1/8"
  mode := PlaybackMode.scan
  scan_duration := 4
  scan_position := 0
  scan_width := 640
  events := []
  event_index := 0

/-- Witness for C3. -/
theorem generate_scan_events_ordered_witness :
    ((0 : ℤ) < sampleScanSequencer.scan_width ∧
      (0 : ℤ) < sampleScanSequencer.bpm ∧
      (0 : ℚ) ≤ sampleScanSequencer.scan_duration) ∧
    (List.Chain' (fun a b => a.time ≤ b.time)
        (generate_scan_events sampleScanSequencer) ∧
      List.Chain' (fun a b => ¬(b.note = a.note ∧ |b.time - a.time| < 1/10))
        (generate_scan_events sampleScanSequencer)) :=
  ⟨⟨by norm_num [sampleScanSequencer], by norm_num [sampleScanSequencer],
      by norm_num [sampleScanSequencer]⟩,
    generate_scan_events_ordered sampleScanSequencer
      (by norm_num [sampleScanSequencer]) (by norm_num [sampleScanSequencer])
      (by norm_num [sampleScanSequencer])⟩

/-! ## music_engine.py: offline export (`MusicEngine.export_audio`)

The offline renderer is modelled over exact rationals. The sample values
produced by `_render_note_to_audio` come from transcendental waveforms
(`np.sin` etc.), so the renderer is abstracted as a function
`render : NoteEvent → List ℚ` returning one (mono) amplitude per stereo
frame (the two channels are identical copies of the same wave); its frame
count `int(sample_rate * duration)` is the `render_note_length` law.
Everything `export_audio` itself does — buffer allocation, additive
mixing with truncation, normalization, 16-bit quantization — is modelled
exactly. -/

/-- `n_samples = int(sample_rate * duration)` in `_render_note_to_audio`
(`sample_rate = 44100`, duration in seconds). -/
def render_note_length (duration : ℚ) : ℕ := (pyInt (44100 * duration)).toNat

/-- `total_samples = int(sample_rate * total_duration)` where
`total_duration = last.timestamp + last.duration/1000 + 0.5` for a
nonempty note list (`notes[-1]`), else `1.0`. -/
def export_total_samples (notes : List NoteEvent) : ℕ :=
  match notes.getLast? with
  | some last =>
    (pyInt (44100 * (last.timestamp + (last.duration : ℚ) / 1000 + 1/2))).toNat
  | none => (pyInt (44100 * 1)).toNat

/-- `start_sample = int(event.timestamp * sample_rate)`. -/
def start_sample (e : NoteEvent) : ℤ := pyInt (e.timestamp * 44100)

/-- The numpy slice-add `audio_buffer[start:start+len(audio)] += audio`
with clipping at the buffer end (`end_sample = min(end_sample,
total_samples)`): buffer cell `i` gains `audio[i - offset]` exactly when
`offset ≤ i < offset + len(audio)`; cells beyond the buffer do not exist
and are dropped. The recursion walks the buffer, shifting the offset. -/
def mixNote : List ℚ → ℤ → List ℚ → List ℚ
  | [], _, _ => []
  | v :: buf, offset, audio =>
    (if offset ≤ 0 ∧ 0 < offset + (audio.length : ℤ) then
        v + audio.getD (0 - offset).toNat 0
      else v) :: mixNote buf (offset - 1) audio

/-- The `for event in notes` mixing loop of `export_audio`. -/
def mixAll (render : NoteEvent → List ℚ) (notes : List NoteEvent)
    (buffer : List ℚ) : List ℚ :=
  notes.foldl (fun buf e => mixNote buf (start_sample e) (render e)) buffer

/-- `np.max(np.abs(buffer))` (0 for the empty buffer). -/
def maxAbs (l : List ℚ) : ℚ := l.foldl (fun m v => max m |v|) 0

/-- The sample pipeline of `export_audio` on a nonempty note list:
allocate `np.zeros(total_samples)`, mix every note, normalize to 0.9 peak
when the peak is positive, quantize to 16-bit integers. One entry per
stereo frame (both channels are equal). -/
def export_samples (render : NoteEvent → List ℚ) (notes : List NoteEvent) :
    List ℤ :=
  let buffer := mixAll render notes (List.replicate (export_total_samples notes) 0)
  let max_val := maxAbs buffer
  let normalized :=
    if 0 < max_val then buffer.map (fun v => v / max_val * (9/10)) else buffer
  normalized.map fun v => pyInt (v * 32767)

/-- `MusicEngine.export_audio(filename, notes)`: `notes = notes if given
else self.recorded_notes`; empty input returns `None` (no file written),
otherwise the WAV frames are written and the path returned — modelled as
`some` of the written samples. -/
def export_audio (notes_arg : Option (List NoteEvent))
    (recorded_notes : List NoteEvent) (render : NoteEvent → List ℚ) :
    Option (List ℤ) :=
  let notes := notes_arg.getD recorded_notes
  if notes = [] then none
  else some (export_samples render notes)

/-- The additive contribution of one note to buffer cell `i`. -/
def contrib (render : NoteEvent → List ℚ) (e : NoteEvent) (i : ℤ) : ℚ :=
  if start_sample e ≤ i ∧ i < start_sample e + ((render e).length : ℤ) then
    (render e).getD (i - start_sample e).toNat 0
  else 0

/-! ### Mixing and normalization lemmas -/

theorem mixNote_length (buf : List ℚ) :
    ∀ (offset : ℤ) (audio : List ℚ),
      (mixNote buf offset audio).length = buf.length := by
  induction buf with
  | nil => intro offset audio; rfl
  | cons v buf ih =>
    intro offset audio
    simp [mixNote, ih]

theorem mixNote_getD (buf : List ℚ) :
    ∀ (offset : ℤ) (audio : List ℚ) (i : ℕ), i < buf.length →
      (mixNote buf offset audio).getD i 0 =
        buf.getD i 0 +
          (if offset ≤ (i : ℤ) ∧ (i : ℤ) < offset + (audio.length : ℤ) then
            audio.getD ((i : ℤ) - offset).toNat 0
          else 0) := by
  induction buf with
  | nil =>
    intro offset audio i hi
    simp at hi
  | cons v buf ih =>
    intro offset audio i hi
    match i with
    | 0 =>
      simp only [mixNote, List.getD_cons_zero, Nat.cast_zero, zero_sub]
      split_ifs with h1 h2 h2 <;> push_cast at * <;> first | ring | omega
    | i + 1 =>
      simp only [mixNote, List.getD_cons_succ]
      rw [ih (offset - 1) audio i (by simpa using hi)]
      have hcond : (offset - 1 ≤ (i : ℤ) ∧ (i : ℤ) < offset - 1 + (audio.length : ℤ)) ↔
          (offset ≤ ((i + 1 : ℕ) : ℤ) ∧ ((i + 1 : ℕ) : ℤ) < offset + (audio.length : ℤ)) := by
        push_cast
        omega
      have hidx : ((i : ℤ) - (offset - 1)).toNat = (((i + 1 : ℕ) : ℤ) - offset).toNat := by
        push_cast
        omega
      rw [if_congr hcond (by rw [hidx]) rfl]

theorem mixAll_length (render : NoteEvent → List ℚ) (notes : List NoteEvent) :
    ∀ buffer : List ℚ, (mixAll render notes buffer).length = buffer.length := by
  induction notes with
  | nil => intro buffer; rfl
  | cons e notes ih =>
    intro buffer
    have : mixAll render (e :: notes) buffer =
        mixAll render notes (mixNote buffer (start_sample e) (render e)) := rfl
    rw [this, ih, mixNote_length]

theorem mixAll_getD (render : NoteEvent → List ℚ) (notes : List NoteEvent) :
    ∀ (buffer : List ℚ) (i : ℕ), i < buffer.length →
      (mixAll render notes buffer).getD i 0 =
        buffer.getD i 0 + (notes.map fun e => contrib render e (i : ℤ)).sum := by
  induction notes with
  | nil => intro buffer i _; simp [mixAll]
  | cons e notes ih =>
    intro buffer i hi
    have hstep : mixAll render (e :: notes) buffer =
        mixAll render notes (mixNote buffer (start_sample e) (render e)) := rfl
    rw [hstep, ih _ i (by rwa [mixNote_length]),
      mixNote_getD buffer (start_sample e) (render e) i hi]
    simp only [List.map_cons, List.sum_cons, contrib]
    ring

theorem foldl_max_init (l : List ℚ) :
    ∀ m : ℚ, m ≤ l.foldl (fun a u => max a |u|) m := by
  induction l with
  | nil => intro m; exact le_refl m
  | cons u l ih =>
    intro m
    calc m ≤ max m |u| := le_max_left _ _
      _ ≤ l.foldl (fun a u => max a |u|) (max m |u|) := ih _

theorem foldl_max_mem (l : List ℚ) :
    ∀ (m : ℚ) (v : ℚ), v ∈ l → |v| ≤ l.foldl (fun a u => max a |u|) m := by
  induction l with
  | nil => intro m v hv; simp at hv
  | cons u l ih =>
    intro m v hv
    rcases List.mem_cons.1 hv with rfl | hv
    · calc |v| ≤ max m |v| := le_max_right _ _
        _ ≤ l.foldl (fun a u => max a |u|) (max m |v|) := foldl_max_init l _
    · exact ih _ v hv

theorem maxAbs_nonneg (l : List ℚ) : 0 ≤ maxAbs l := foldl_max_init l 0

theorem abs_le_maxAbs {l : List ℚ} {v : ℚ} (h : v ∈ l) : |v| ≤ maxAbs l :=
  foldl_max_mem l 0 v h

theorem pyInt_abs_le (q : ℚ) : |(pyInt q : ℚ)| ≤ |q| := by
  unfold pyInt
  split_ifs with h
  · have h0 : (0 : ℤ) ≤ ⌊q⌋ := Int.floor_nonneg.2 h
    rw [abs_of_nonneg h, abs_of_nonneg (by exact_mod_cast h0 : (0 : ℚ) ≤ ((⌊q⌋ : ℤ) : ℚ))]
    exact Int.floor_le q
  · push_neg at h
    have hc : ⌈q⌉ ≤ 0 := Int.ceil_le.2 (by exact_mod_cast h.le)
    rw [abs_of_neg h, abs_of_nonpos (by exact_mod_cast hc : ((⌈q⌉ : ℤ) : ℚ) ≤ 0)]
    have := Int.le_ceil q
    linarith

/-- Every written 16-bit sample is bounded by `0.9 * 32767` in absolute
value. -/
theorem export_samples_peak (render : NoteEvent → List ℚ)
    (notes : List NoteEvent) :
    ∀ z ∈ export_samples render notes, |(z : ℚ)| ≤ 32767 * (9/10) := by
  intro z hz
  simp only [export_samples] at hz
  rw [List.mem_map] at hz
  obtain ⟨w, hw, rfl⟩ := hz
  have hwbound : |w| ≤ 9/10 := by
    set buffer := mixAll render notes (List.replicate (export_total_samples notes) 0)
      with hbuf
    by_cases hm : 0 < maxAbs buffer
    · rw [if_pos hm, List.mem_map] at hw
      obtain ⟨v, hv, rfl⟩ := hw
      have hvb : |v| ≤ maxAbs buffer := abs_le_maxAbs hv
      rw [abs_mul, abs_div, abs_of_nonneg (maxAbs_nonneg buffer)]
      have hdiv : |v| / maxAbs buffer ≤ 1 := (div_le_one hm).2 hvb
      have h910 : |(9/10 : ℚ)| = 9/10 := by norm_num
      rw [h910]
      nlinarith
    · rw [if_neg hm] at hw
      have hvb : |w| ≤ maxAbs buffer := abs_le_maxAbs hw
      have : maxAbs buffer = 0 := le_antisymm (not_lt.1 hm) (maxAbs_nonneg buffer)
      rw [this] at hvb
      calc |w| ≤ 0 := hvb
        _ ≤ 9/10 := by norm_num
  calc |((pyInt (w * 32767) : ℤ) : ℚ)| ≤ |w * 32767| := pyInt_abs_le _
    _ = |w| * 32767 := by rw [abs_mul]; norm_num
    _ ≤ (9/10) * 32767 := by nlinarith
    _ = 32767 * (9/10) := by ring

theorem replicate_getD (n : ℕ) : ∀ i : ℕ, (List.replicate n (0 : ℚ)).getD i 0 = 0 := by
  induction n with
  | zero => intro i; simp
  | succ n ih =>
    intro i
    match i with
    | 0 => simp [List.replicate]
    | i + 1 =>
      rw [List.replicate, List.getD_cons_succ]
      exact ih i

/-- C7: `export_audio` with an empty recording buffer and no supplied note
list reports failure (`None`) and writes nothing. -/
theorem export_audio_empty_fails (render : NoteEvent → List ℚ) :
    export_audio none [] render = none := rfl

/-- C4: for every nonempty note list (timestamps non-negative, as the
data model guarantees) and every renderer satisfying the
`int(sample_rate * duration)` frame-count law: `export_audio` writes
exactly `export_total_samples` stereo frames, where the frame count is
`int((last.timestamp + last.duration/1000 + 0.5) * 44100)`; the mixed
buffer keeps its allocated size and each of its cells is the sum of the
per-note contributions at that cell's sample offset (truncating past the
buffer end); and every written 16-bit sample is at most `0.9 * 32767` in
absolute value. In particular a single piano event (note 60, velocity
100, 200 ms, timestamp 0) yields `int(0.7 * 44100)` frames. -/
theorem export_audio_render_correct :
    (∀ (notes recorded : List NoteEvent) (render : NoteEvent → List ℚ),
      notes ≠ [] →
      (∀ e ∈ notes, 0 ≤ e.timestamp) →
      (∀ e, (render e).length = render_note_length ((e.duration : ℚ) / 1000)) →
      export_audio (some notes) recorded render =
          some (export_samples render notes) ∧
        (export_samples render notes).length = export_total_samples notes ∧
        (∀ last, notes.getLast? = some last →
          export_total_samples notes =
            (pyInt ((last.timestamp + (last.duration : ℚ) / 1000 + 1/2) *
              44100)).toNat) ∧
        (∀ i : ℕ, i < export_total_samples notes →
          (mixAll render notes
              (List.replicate (export_total_samples notes) 0)).getD i 0 =
            (notes.map fun e => contrib render e (i : ℤ)).sum) ∧
        (∀ z ∈ export_samples render notes, |(z : ℚ)| ≤ 32767 * (9/10))) ∧
    export_total_samples
        [{ note := 60, velocity := 100, duration := 200, instrument := "piano",
           timestamp := 0, x := 0, y := 0 }] =
      (pyInt ((7/10 : ℚ) * 44100)).toNat := by
  constructor
  · intro notes recorded render hne hts hlen
    refine ⟨?_, ?_, ?_, ?_, ?_⟩
    · simp [export_audio, hne]
    · simp only [export_samples]
      split_ifs with hm
      · rw [List.length_map, List.length_map, mixAll_length, List.length_replicate]
      · rw [List.length_map, mixAll_length, List.length_replicate]
    · intro last hlast
      unfold export_total_samples
      rw [hlast]
      show (pyInt (44100 * (last.timestamp + (last.duration : ℚ) / 1000 + 1/2))).toNat = _
      rw [mul_comm]
    · intro i hi
      rw [mixAll_getD render notes _ i (by rwa [List.length_replicate]),
        replicate_getD, zero_add]
    · exact export_samples_peak render notes
  · unfold export_total_samples
    norm_num [pyInt]

/-- The renderer used by the C4 witness: the right number of silent
frames per note. -/
def sampleRender (e : NoteEvent) : List ℚ :=
  List.replicate (render_note_length ((e.duration : ℚ) / 1000)) 0

/-- The single event of the spec's export example. -/
def sampleExportEvent : NoteEvent where
  note := 60
  velocity := 100
  duration := 200
  instrument := "piano"
  timestamp := 0
  x := 0
  y := 0

/-- Witness for C4 at the single-event example. -/
theorem export_audio_render_correct_witness :
    (([sampleExportEvent] : List NoteEvent) ≠ [] ∧
      (∀ e ∈ [sampleExportEvent], (0 : ℚ) ≤ e.timestamp) ∧
      (∀ e, (sampleRender e).length = render_note_length ((e.duration : ℚ) / 1000))) ∧
    (export_audio (some [sampleExportEvent]) [] sampleRender =
        some (export_samples sampleRender [sampleExportEvent]) ∧
      (export_samples sampleRender [sampleExportEvent]).length =
        export_total_samples [sampleExportEvent] ∧
      (∀ last, ([sampleExportEvent] : List NoteEvent).getLast? = some last →
        export_total_samples [sampleExportEvent] =
          (pyInt ((last.timestamp + (last.duration : ℚ) / 1000 + 1/2) *
            44100)).toNat) ∧
      (∀ i : ℕ, i < export_total_samples [sampleExportEvent] →
        (mixAll sampleRender [sampleExportEvent]
            (List.replicate (export_total_samples [sampleExportEvent]) 0)).getD i 0 =
          (([sampleExportEvent] : List NoteEvent).map
            fun e => contrib sampleRender e (i : ℤ)).sum) ∧
      (∀ z ∈ export_samples sampleRender [sampleExportEvent],
        |(z : ℚ)| ≤ 32767 * (9/10))) :=
  ⟨⟨by simp, by simp [sampleExportEvent], fun e => by simp [sampleRender]⟩,
    export_audio_render_correct.1 [sampleExportEvent] [] sampleRender
      (by simp) (by simp [sampleExportEvent]) (fun e => by simp [sampleRender])⟩

end GesturePaint
